import Mathlib

/-!
# Verification of the `kmp-rs` generalized Knuth-Morris-Pratt search engine

Shallow embedding of `src/lib.rs`: the failure-table builder `kmp_table`,
the pattern type `KmpPattern`, and the search iterator `KmpSearch::next`,
generalized over a fuzzy capability model (`is_match_possible`,
`is_match_guaranteed`, `match_haystack`).

Rust slices are modelled as `List`s, `usize` as `Nat`.  Every operation that
can panic in Rust (out-of-bounds indexing, arithmetic underflow) is modelled
as an explicit error, and the source's `loop`s - which have no syntactic
termination measure - are modelled with an explicit fuel parameter whose
exhaustion is a third error.  Safety and termination claims then become the
statement that the computation never returns an error.
-/

namespace KmpRs

/-- Failure mode of the embedded computations: `oob` models a Rust panic from
an out-of-bounds slice index, `underflow` a panic from `usize` subtraction
underflow, and `fuel` the exhaustion of the explicit loop fuel. -/
inductive KmpErr : Type where
  | oob : KmpErr
  | underflow : KmpErr
  | fuel : KmpErr
deriving DecidableEq, Repr

/-- `KmpTableItem` from the source: the fallback needle cursor together with
the provisional haystack correction offset. -/
structure KmpTableItem : Type where
  needle : Nat
  haystack : Nat
deriving DecidableEq, Repr

/-- Checked slice indexing: `l[i]` with a Rust panic modelled as `.error .oob`. -/
def getE (l : List α) (i : Nat) : Except KmpErr α :=
  match l[i]? with
  | some x => Except.ok x
  | none => Except.error KmpErr.oob

/-- Checked `usize` subtraction: `a - b` with underflow modelled as an error. -/
def subE (a b : Nat) : Except KmpErr Nat :=
  if b ≤ a then Except.ok (a - b) else Except.error KmpErr.underflow

/-- The inner fallback loop of `kmp_table` (source lines 56-75): starting from
`item`, repeatedly test `is_match_possible` against `needle[item.needle]`,
extending the entry on success and falling back through earlier table entries
on failure.  `P` is `is_match_possible`, `G` is `is_match_guaranteed`. -/
def kmpTableLoop (P G : N → N → Bool) (needle : List N) (lsp : List KmpTableItem)
    (nitem : N) : Nat → KmpTableItem → Except KmpErr KmpTableItem
  | 0, _ => Except.error KmpErr.fuel
  | fuel + 1, item => do
    let x ← getE needle item.needle
    if P nitem x then
      Except.ok ⟨item.needle + 1,
        if item.haystack = 0 then (if G nitem x then 0 else 1) else item.haystack + 1⟩
    else if item.needle = 0 then
      Except.ok item
    else do
      let back ← getE lsp (item.needle - 1)
      kmpTableLoop P G needle lsp nitem fuel back

/-- The outer loop of `kmp_table` (source lines 53-78): for each needle element
past the first, run the fallback loop starting from the last table entry and
push the resulting entry. -/
def kmpTableGo (P G : N → N → Bool) (needle : List N) :
    List N → List KmpTableItem → Except KmpErr (List KmpTableItem)
  | [], lsp => Except.ok lsp
  | nitem :: rest, lsp => do
    let last ← getE lsp (lsp.length - 1)
    let item ← kmpTableLoop P G needle lsp nitem (needle.length + 1) last
    kmpTableGo P G needle rest (lsp ++ [item])

/-- `kmp_table` (source lines 42-81): empty needle gives an empty table;
otherwise entry 0 is `(0, 0)` and the remaining entries are produced by the
fallback loop. -/
def kmpTable (P G : N → N → Bool) (needle : List N) : Except KmpErr (List KmpTableItem) :=
  match needle with
  | [] => Except.ok []
  | _ :: rest => kmpTableGo P G needle rest [⟨0, 0⟩]

/-- The shared cursor-rewind step of `KmpSearch::next` (source lines 175-179
and 192-195): set the needle cursor to `back.needle` and, when the entry's
provisional offset is nonzero, rewind both cursors by that offset.  Returns
the new `(needle_pos, haystack_pos)` pair. -/
def kmpBacktrack (back : KmpTableItem) (hp : Nat) : Except KmpErr (Nat × Nat) :=
  if back.haystack = 0 then
    Except.ok (back.needle, hp)
  else do
    let np' ← subE back.needle back.haystack
    let hp' ← subE hp back.haystack
    Except.ok (np', hp')

/-- Result of one `next` call: `done` is Rust's `None` (iterator exhausted);
`found pos np hp` is `Some(pos)` together with the updated cursor state. -/
inductive NextRes : Type where
  | done : NextRes
  | found : Nat → Nat → Nat → NextRes
deriving DecidableEq, Repr

/-- The two nested loops of `KmpSearch::next` (source lines 155-199) as a
single fuel-indexed step function.  The last argument is the loop phase:
`none` means the head of the outer haystack-consuming loop; `some hi` means
the inner needle-matching loop with current haystack element `hi`.
`mh` is `match_haystack`, `ov` the `OVERLAPPING` const parameter. -/
def kmpLoop (mh : N → H → Bool) (ov : Bool) (needle : List N)
    (lsp : List KmpTableItem) (haystack : List H) :
    Nat → Nat → Nat → Option H → Except KmpErr NextRes
  | 0, _, _, _ => Except.error KmpErr.fuel
  | fuel + 1, np, hp, none =>
    if haystack.length ≤ hp then
      Except.ok NextRes.done
    else do
      let hi ← getE haystack hp
      kmpLoop mh ov needle lsp haystack fuel np (hp + 1) (some hi)
  | fuel + 1, np, hp, some hi => do
    let ne ← getE needle np
    if mh ne hi then
      if np + 1 = needle.length then do
        let pos ← subE hp needle.length
        if ov then do
          let back ← getE lsp (np + 1 - 1)
          let s ← kmpBacktrack back hp
          Except.ok (NextRes.found pos s.1 s.2)
        else
          Except.ok (NextRes.found pos 0 hp)
      else
        kmpLoop mh ov needle lsp haystack fuel (np + 1) hp none
    else if np = 0 then
      kmpLoop mh ov needle lsp haystack fuel np hp none
    else do
      let back ← getE lsp (np - 1)
      let s ← kmpBacktrack back hp
      if back.haystack = 0 then
        kmpLoop mh ov needle lsp haystack fuel s.1 s.2 (some hi)
      else do
        let hi' ← getE haystack s.2
        kmpLoop mh ov needle lsp haystack fuel s.1 s.2 (some hi')

/-- Fuel budget for one `next` call, sufficient for any state reachable on a
haystack of length `hl` (proved below). -/
def loopFuel (hl : Nat) : Nat := (hl + 1) * (2 * hl + 2)

/-- `KmpSearch::next` (source lines 143-200): the early exhaustion check, the
empty-needle special case, and otherwise the nested search loops. -/
def kmpNext (mh : N → H → Bool) (ov : Bool) (needle : List N)
    (lsp : List KmpTableItem) (haystack : List H) (np hp : Nat) :
    Except KmpErr NextRes := do
  let lhs ← subE (hp + needle.length) np
  if haystack.length < lhs then
    Except.ok NextRes.done
  else if needle.length = 0 then
    Except.ok (NextRes.found hp np (hp + 1))
  else
    kmpLoop mh ov needle lsp haystack (loopFuel haystack.length) np hp none

/-- Driving the iterator to exhaustion: repeatedly call `next`, collecting the
yielded positions (models `Iterator::collect` in the source's tests). -/
def kmpRun (mh : N → H → Bool) (ov : Bool) (needle : List N)
    (lsp : List KmpTableItem) (haystack : List H) :
    Nat → Nat → Nat → Except KmpErr (List Nat)
  | 0, _, _ => Except.error KmpErr.fuel
  | fuel + 1, np, hp => do
    let r ← kmpNext mh ov needle lsp haystack np hp
    match r with
    | NextRes.done => Except.ok []
    | NextRes.found pos np' hp' => do
      let rest ← kmpRun mh ov needle lsp haystack fuel np' hp'
      Except.ok (pos :: rest)

/-- The full public pipeline: `KmpPattern::new(needle)` followed by
`find` (`ov = false`) or `find_overlapping` (`ov = true`) on `haystack`,
collected to a list of match positions. -/
def kmpSearch (P G : N → N → Bool) (mh : N → H → Bool) (ov : Bool)
    (needle : List N) (haystack : List H) : Except KmpErr (List Nat) := do
  let lsp ← kmpTable P G needle
  kmpRun mh ov needle lsp haystack (haystack.length + 2) 0 0

/-- The built-in capability model for primitive exact-equality element types
(source lines 17-31): all three predicates are plain equality. -/
def eqCap [DecidableEq α] : α → α → Bool := fun a b => decide (a = b)

/-- The case-insensitive capability model described by the specification:
`is_match_possible` and `match_haystack` fold case. -/
def ciFold (a b : Char) : Bool := decide (a.toLower = b.toLower)

/-- The case-insensitive model's `is_match_guaranteed`: exact case required. -/
def ciExact (a b : Char) : Bool := decide (a = b)

/-- Reference definition of substring occurrence (for the refinement claim,
following the specification's words): the needle occurs in the haystack at
start position `p` when a full copy of the needle fits there. -/
def OccursAt (needle haystack : List α) (p : Nat) : Prop :=
  p + needle.length ≤ haystack.length ∧
    needle = (haystack.drop p).take needle.length

instance [DecidableEq α] (needle haystack : List α) (p : Nat) :
    Decidable (OccursAt needle haystack p) := by
  unfold OccursAt; infer_instance

/-- Invariant of the failure table: each entry's provisional offset is bounded
by its fallback cursor, which is bounded by the entry's own index. -/
def TableInv (lsp : List KmpTableItem) : Prop :=
  ∀ i, (h : i < lsp.length) → lsp[i].haystack ≤ lsp[i].needle ∧ lsp[i].needle ≤ i

/-- Termination measure for the outer-loop phase of `kmpLoop`. -/
def muOut (hl np hp : Nat) : Nat :=
  (hl - (hp - np)) * (2 * hl + 2) + 2 * (hl - hp) + 1

/-- Termination measure for the inner-loop phase of `kmpLoop`. -/
def muIn (hl np hp : Nat) : Nat :=
  (hl - (hp - (np + 1))) * (2 * hl + 2) + 2 * (hl - hp) + 2

/-- Slack of the haystack-position postcondition for each loop phase. -/
def phOff {H : Type} : Option H → Nat
  | none => 0
  | some _ => 1

/-- The phase-dependent termination measure of `kmpLoop`. -/
def muPh {H : Type} (hl np hp : Nat) : Option H → Nat
  | none => muOut hl np hp
  | some _ => muIn hl np hp

/-- Length of the longest proper border (prefix that is also a suffix) of a
sequence - the classical KMP failure value. -/
def maxBorder [DecidableEq α] (u : List α) : Nat :=
  Nat.findGreatest (fun c => c < u.length ∧ u.take c <:+ u) (u.length - 1)

/-- The classical failure table: entry `i` holds the longest proper border of
`needle.take (i+1)`, with no provisional offset. -/
def borderTable [DecidableEq α] (needle : List α) : List KmpTableItem :=
  (List.range needle.length).map (fun i => ⟨maxBorder (needle.take (i + 1)), 0⟩)

/-- The search loop, run with enough fuel, produces result `r` from the given
state. -/
def Reaches {N H : Type} (mh : N → H → Bool) (ov : Bool) (needle : List N)
    (lsp : List KmpTableItem) (haystack : List H) (np hp : Nat)
    (ph : Option H) (r : NextRes) : Prop :=
  ∃ fuel, kmpLoop mh ov needle lsp haystack fuel np hp ph = Except.ok r

/-- The classical KMP search invariant at an outer-loop head: the needle
cursor is the length of the longest proper needle prefix that is a suffix of
the consumed haystack. -/
def SInv (needle haystack : List α) (np hp : Nat) : Prop :=
  np < needle.length ∧ needle.take np <:+ haystack.take hp ∧
    ∀ c, c < needle.length → needle.take c <:+ haystack.take hp → c ≤ np

/-! ## Basic rewriting lemmas for the `Except` monad -/

@[simp] theorem ok_bind {α β : Type} (a : α) (f : α → Except KmpErr β) :
    (Except.ok a : Except KmpErr α) >>= f = f a := rfl

@[simp] theorem error_bind {α β : Type} (e : KmpErr) (f : α → Except KmpErr β) :
    (Except.error e : Except KmpErr α) >>= f = Except.error e := rfl

theorem getE_ok {α : Type} (l : List α) (i : Nat) (h : i < l.length) :
    getE l i = Except.ok l[i] := by
  unfold getE
  rw [List.getElem?_eq_getElem h]

theorem subE_ok (a b : Nat) (h : b ≤ a) : subE a b = Except.ok (a - b) := by
  unfold subE
  rw [if_pos h]

/-! ## Failure-table construction lemmas -/

theorem kmpTableLoop_ok {N : Type} (P G : N → N → Bool) (needle : List N)
    (lsp : List KmpTableItem) (nitem : N) (hlen : lsp.length < needle.length)
    (hinv : TableInv lsp) :
    ∀ fuel item, item.needle < fuel → item.needle < lsp.length →
      item.haystack ≤ item.needle →
      ∃ r, kmpTableLoop P G needle lsp nitem fuel item = Except.ok r ∧
        r.haystack ≤ r.needle ∧ r.needle ≤ lsp.length := by
  intro fuel
  induction fuel with
  | zero => intro item h0; omega
  | succ fuel ih =>
    intro item hf hlt hh
    have hin : item.needle < needle.length := by omega
    rw [kmpTableLoop]
    rw [getE_ok needle item.needle hin, ok_bind]
    by_cases hP : P nitem needle[item.needle]
    · rw [if_pos hP]
      refine ⟨_, rfl, ?_, ?_⟩
      · dsimp only
        by_cases h0 : item.haystack = 0
        · rw [if_pos h0]
          split <;> omega
        · rw [if_neg h0]
          omega
      · dsimp only
        omega
    · rw [if_neg hP]
      by_cases h0 : item.needle = 0
      · rw [if_pos h0]
        exact ⟨item, rfl, hh, by omega⟩
      · rw [if_neg h0]
        have hbin : item.needle - 1 < lsp.length := by omega
        rw [getE_ok lsp (item.needle - 1) hbin, ok_bind]
        obtain ⟨hb1, hb2⟩ := hinv (item.needle - 1) hbin
        obtain ⟨r, hr, hr1, hr2⟩ := ih lsp[item.needle - 1] (by omega) (by omega) hb1
        exact ⟨r, hr, hr1, hr2⟩


theorem kmpTableGo_ok {N : Type} (P G : N → N → Bool) (needle : List N) :
    ∀ (rest : List N) (lsp : List KmpTableItem), 0 < lsp.length →
      lsp.length + rest.length = needle.length → TableInv lsp →
      ∃ out, kmpTableGo P G needle rest lsp = Except.ok out ∧
        TableInv out ∧ out.length = needle.length ∧ lsp <+: out := by
  intro rest
  induction rest with
  | nil =>
    intro lsp hpos hsum hinv
    exact ⟨lsp, rfl, hinv, by simpa using hsum, List.prefix_refl lsp⟩
  | cons nitem rest ih =>
    intro lsp hpos hsum hinv
    rw [kmpTableGo]
    rw [getE_ok lsp (lsp.length - 1) (by omega), ok_bind]
    obtain ⟨hl1, hl2⟩ := hinv (lsp.length - 1) (by omega)
    obtain ⟨r, hr, hr1, hr2⟩ :=
      kmpTableLoop_ok P G needle lsp nitem (by simp at hsum; omega) hinv
        (needle.length + 1) lsp[lsp.length - 1] (by omega) (by omega) hl1
    rw [hr, ok_bind]
    have hinv' : TableInv (lsp ++ [r]) := by
      intro i hi
      simp only [List.length_append, List.length_cons, List.length_nil] at hi
      by_cases hlt : i < lsp.length
      · rw [List.getElem_append_left hlt]
        exact hinv i hlt
      · have hieq : i = lsp.length := by omega
        subst hieq
        rw [List.getElem_append_right (by omega)]
        simp only [Nat.sub_self, List.getElem_singleton]
        exact ⟨hr1, hr2⟩
    obtain ⟨out, ho, ho1, ho2, ho3⟩ :=
      ih (lsp ++ [r]) (by simp) (by simp at hsum ⊢; omega) hinv'
    exact ⟨out, ho, ho1, ho2, (List.prefix_append lsp [r]).trans ho3⟩

theorem kmpTable_ok {N : Type} (P G : N → N → Bool) (needle : List N) :
    ∃ lsp, kmpTable P G needle = Except.ok lsp ∧
      lsp.length = needle.length ∧ TableInv lsp ∧
      lsp[0]? = if needle.length = 0 then none else some ⟨0, 0⟩ := by
  match needle with
  | [] => exact ⟨[], rfl, rfl, fun i h => by simp at h, by simp⟩
  | n0 :: rest =>
    obtain ⟨out, ho, ho1, ho2, ho3⟩ :=
      kmpTableGo_ok P G (n0 :: rest) rest [⟨0, 0⟩] (by simp)
        (by simp; omega)
        (by
          intro i h
          simp only [List.length_singleton] at h
          have hi0 : i = 0 := by omega
          subst hi0
          simp)
    refine ⟨out, ho, ho2, ho1, ?_⟩
    simp only [List.length_cons]
    rw [if_neg (by omega)]
    obtain ⟨t, ht⟩ := ho3
    subst ht
    rw [List.getElem?_append_left (by simp)]
    simp


theorem kmpTableLoop_haystack_zero {N : Type} (P G : N → N → Bool)
    (hPG : ∀ a b, P a b = G a b) (needle : List N) (lsp : List KmpTableItem)
    (nitem : N) (hz : ∀ e ∈ lsp, e.haystack = 0) :
    ∀ fuel item r, item.haystack = 0 →
      kmpTableLoop P G needle lsp nitem fuel item = Except.ok r →
      r.haystack = 0 := by
  intro fuel
  induction fuel with
  | zero => intro item r h0 hr; exact absurd hr (by rw [kmpTableLoop]; intro h; cases h)
  | succ fuel ih =>
    intro item r h0 hr
    rw [kmpTableLoop] at hr
    cases hx : getE needle item.needle with
    | error e => rw [hx, error_bind] at hr; cases hr
    | ok x =>
      rw [hx, ok_bind] at hr
      by_cases hP : P nitem x
      · rw [if_pos hP] at hr
        have hG : G nitem x = true := by rw [← hPG]; exact hP
        cases hr
        simp [h0, hG]
      · rw [if_neg hP] at hr
        by_cases hn0 : item.needle = 0
        · rw [if_pos hn0] at hr
          cases hr
          exact h0
        · rw [if_neg hn0] at hr
          cases hb : getE lsp (item.needle - 1) with
          | error e => rw [hb, error_bind] at hr; cases hr
          | ok back =>
            rw [hb, ok_bind] at hr
            have hbz : back.haystack = 0 := by
              apply hz
              unfold getE at hb
              cases hmem : lsp[item.needle - 1]? with
              | none => rw [hmem] at hb; cases hb
              | some y =>
                rw [hmem] at hb
                cases hb
                exact List.getElem?_mem hmem
            exact ih back r hbz hr

theorem kmpTableGo_haystack_zero {N : Type} (P G : N → N → Bool)
    (hPG : ∀ a b, P a b = G a b) (needle : List N) :
    ∀ (rest : List N) (lsp out : List KmpTableItem),
      (∀ e ∈ lsp, e.haystack = 0) →
      kmpTableGo P G needle rest lsp = Except.ok out →
      ∀ e ∈ out, e.haystack = 0 := by
  intro rest
  induction rest with
  | nil =>
    intro lsp out hz hout
    rw [kmpTableGo] at hout
    cases hout
    exact hz
  | cons nitem rest ih =>
    intro lsp out hz hout
    rw [kmpTableGo] at hout
    cases hlast : getE lsp (lsp.length - 1) with
    | error e => rw [hlast, error_bind] at hout; cases hout
    | ok last =>
      rw [hlast, ok_bind] at hout
      cases hloop : kmpTableLoop P G needle lsp nitem (needle.length + 1) last with
      | error e => rw [hloop, error_bind] at hout; cases hout
      | ok r =>
        rw [hloop, ok_bind] at hout
        have hlz : last.haystack = 0 := by
          apply hz
          unfold getE at hlast
          cases hmem : lsp[lsp.length - 1]? with
          | none => rw [hmem] at hlast; cases hlast
          | some y =>
            rw [hmem] at hlast
            cases hlast
            exact List.getElem?_mem hmem
        have hrz : r.haystack = 0 :=
          kmpTableLoop_haystack_zero P G hPG needle lsp nitem hz _ last r hlz hloop
        refine ih (lsp ++ [r]) out ?_ hout
        intro e he
        rcases List.mem_append.mp he with h | h
        · exact hz e h
        · simp only [List.mem_singleton] at h
          subst h
          exact hrz

/-! ## The empty-needle search -/

/-- Running the iterator over an empty needle from haystack position `hp`
yields exactly the positions `hp, hp+1, ..., haystack.length`. -/
theorem kmpRun_nil_eq {N H : Type} (mh : N → H → Bool) (ov : Bool)
    (lsp : List KmpTableItem) (haystack : List H) (fuel : Nat) :
    ∀ hp, hp + fuel = haystack.length + 2 → hp ≤ haystack.length + 1 →
      kmpRun mh ov ([] : List N) lsp haystack fuel 0 hp =
        Except.ok (List.range' hp (haystack.length + 1 - hp)) := by
  induction fuel with
  | zero => intro hp h1 h2; omega
  | succ fuel ih =>
    intro hp h1 h2
    rw [kmpRun, kmpNext]
    simp only [subE, List.length_nil, Nat.add_zero, Nat.zero_le, if_pos, Nat.sub_zero, ok_bind]
    by_cases hcmp : haystack.length < hp
    · have hhp : hp = haystack.length + 1 := by omega
      simp [hcmp, hhp]
    · simp only [hcmp, if_false, if_pos rfl, ok_bind]
      rw [ih (hp + 1) (by omega) (by omega)]
      have h3 : haystack.length + 1 - hp = (haystack.length - hp) + 1 := by omega
      rw [h3, List.range'_succ]
      simp only [ok_bind]
      have h4 : haystack.length + 1 - (hp + 1) = haystack.length - hp := by omega
      rw [h4]

/-! ## Search-loop safety and termination -/

@[simp] theorem phOff_none {H : Type} : phOff (none : Option H) = 0 := rfl

@[simp] theorem phOff_some {H : Type} (hi : H) : phOff (some hi) = 1 := rfl

@[simp] theorem muPh_none {H : Type} (hl np hp : Nat) :
    muPh hl np hp (none : Option H) = muOut hl np hp := rfl

@[simp] theorem muPh_some {H : Type} (hl np hp : Nat) (hi : H) :
    muPh hl np hp (some hi) = muIn hl np hp := rfl

theorem mu_helper (W a b X Y : Nat) (hab : b + 1 ≤ a) (hXY : X < W + Y) :
    b * W + X < a * W + Y := by
  have h1 : (b + 1) * W ≤ a * W := Nat.mul_le_mul_right W hab
  have h2 : (b + 1) * W = b * W + W := by ring
  omega

theorem muA (hl np hp : Nat) (h2 : hp < hl) : muIn hl np (hp + 1) < muOut hl np hp := by
  unfold muIn muOut
  have he : hp + 1 - (np + 1) = hp - np := by omega
  rw [he]
  generalize (hl - (hp - np)) * (2 * hl + 2) = k
  omega

theorem muB (hl np hp : Nat) : muOut hl (np + 1) hp < muIn hl np hp := by
  unfold muIn muOut
  generalize (hl - (hp - (np + 1))) * (2 * hl + 2) = k
  omega

theorem muD (hl hp : Nat) (h1 : 1 ≤ hp) (h2 : hp ≤ hl) : muOut hl 0 hp < muIn hl 0 hp := by
  unfold muIn muOut
  exact mu_helper (2 * hl + 2) (hl - (hp - 1)) (hl - hp) (2 * (hl - hp) + 1)
    (2 * (hl - hp) + 2) (by omega) (by omega)

theorem muEF (hl np hp bn k : Nat) (hbn : bn + 1 ≤ np) (hk : k ≤ bn)
    (h1 : np + 1 ≤ hp) (h2 : hp ≤ hl) :
    muIn hl (bn - k) (hp - k) < muIn hl np hp := by
  unfold muIn
  exact mu_helper (2 * hl + 2) (hl - (hp - (np + 1))) (hl - (hp - k - (bn - k + 1)))
    (2 * (hl - (hp - k)) + 2) (2 * (hl - hp) + 2) (by omega) (by omega)

theorem kmpBacktrack_eq (back : KmpTableItem) (hp : Nat)
    (h1 : back.haystack ≤ back.needle) (h2 : back.haystack ≤ hp) :
    kmpBacktrack back hp =
      Except.ok (back.needle - back.haystack, hp - back.haystack) := by
  unfold kmpBacktrack
  by_cases h : back.haystack = 0
  · simp [h]
  · rw [if_neg h, subE_ok _ _ h1, ok_bind, subE_ok _ _ h2, ok_bind]

theorem kmpLoop_ok {N H : Type} (mh : N → H → Bool) (ov : Bool)
    (needle : List N) (lsp : List KmpTableItem) (haystack : List H)
    (hL : 1 ≤ needle.length) (hlen : lsp.length = needle.length)
    (hinv : TableInv lsp) :
    ∀ fuel (ph : Option H) np hp, np < needle.length → hp ≤ haystack.length →
      np + phOff ph ≤ hp → muPh haystack.length np hp ph < fuel →
      ∃ res, kmpLoop mh ov needle lsp haystack fuel np hp ph = Except.ok res ∧
        (res = NextRes.done ∨
         ∃ pos np' hp', res = NextRes.found pos np' hp' ∧
           np' < needle.length ∧ hp' ≤ haystack.length ∧
           pos + needle.length ≤ haystack.length ∧
           pos + np' + 1 ≤ hp' ∧
           hp ≤ pos + np + phOff ph) := by
  intro fuel
  induction fuel with
  | zero =>
    intro ph np hp hnp hhp hle hmu
    omega
  | succ fuel ih =>
    intro ph np hp hnp hhp hle hmu
    cases ph with
    | none =>
      simp only [phOff_none] at hle ⊢
      rw [muPh_none] at hmu
      rw [kmpLoop]
      by_cases hend : haystack.length ≤ hp
      · rw [if_pos hend]
        exact ⟨NextRes.done, rfl, Or.inl rfl⟩
      · rw [if_neg hend]
        have hhplt : hp < haystack.length := by omega
        rw [getE_ok haystack hp hhplt, ok_bind]
        have hmu' : muIn haystack.length np (hp + 1) < fuel :=
          lt_of_lt_of_le (muA haystack.length np hp (by omega)) (by omega)
        obtain ⟨res, hres, hpost⟩ := ih (some haystack[hp]) np (hp + 1)
          hnp (by omega) (by simp only [phOff_some]; omega)
          (by rw [muPh_some]; exact hmu')
        refine ⟨res, hres, ?_⟩
        rcases hpost with h | ⟨pos, np', hp', heq, a1, a2, a3, a4, a5⟩
        · exact Or.inl h
        · simp only [phOff_some] at a5
          exact Or.inr ⟨pos, np', hp', heq, a1, a2, a3, a4, by omega⟩
    | some hi =>
      simp only [phOff_some] at hle ⊢
      rw [muPh_some] at hmu
      rw [kmpLoop]
      rw [getE_ok needle np hnp, ok_bind]
      by_cases hmh : mh needle[np] hi
      · rw [if_pos hmh]
        by_cases hfin : np + 1 = needle.length
        · rw [if_pos hfin]
          rw [subE_ok hp needle.length (by omega), ok_bind]
          cases ov with
          | false =>
            rw [if_neg (by simp)]
            refine ⟨_, rfl, Or.inr ⟨hp - needle.length, 0, hp, rfl, ?_, ?_, ?_, ?_, ?_⟩⟩
            all_goals omega
          | true =>
            rw [if_pos rfl]
            simp only [Nat.add_sub_cancel]
            have hnplsp : np < lsp.length := by omega
            rw [getE_ok lsp np hnplsp, ok_bind]
            obtain ⟨hb1, hb2⟩ := hinv np hnplsp
            rw [kmpBacktrack_eq _ hp hb1 (by omega), ok_bind]
            refine ⟨_, rfl, Or.inr ⟨hp - needle.length,
              lsp[np].needle - lsp[np].haystack,
              hp - lsp[np].haystack, rfl, ?_, ?_, ?_, ?_, ?_⟩⟩
            all_goals omega
        · rw [if_neg hfin]
          have hmu' : muOut haystack.length (np + 1) hp < fuel :=
            lt_of_lt_of_le (muB haystack.length np hp) (by omega)
          obtain ⟨res, hres, hpost⟩ := ih none (np + 1) hp (by omega) hhp
            (by simp only [phOff_none]; omega) (by rw [muPh_none]; exact hmu')
          refine ⟨res, hres, ?_⟩
          rcases hpost with h | ⟨pos, np', hp', heq, a1, a2, a3, a4, a5⟩
          · exact Or.inl h
          · simp only [phOff_none] at a5
            exact Or.inr ⟨pos, np', hp', heq, a1, a2, a3, a4, by omega⟩
      · rw [if_neg hmh]
        by_cases hz : np = 0
        · rw [if_pos hz]
          have hmu' : muOut haystack.length np hp < fuel := by
            subst hz
            exact lt_of_lt_of_le (muD haystack.length hp (by omega) hhp) (by omega)
          obtain ⟨res, hres, hpost⟩ := ih none np hp hnp hhp
            (by simp only [phOff_none]; omega) (by rw [muPh_none]; exact hmu')
          refine ⟨res, hres, ?_⟩
          rcases hpost with h | ⟨pos, np', hp', heq, a1, a2, a3, a4, a5⟩
          · exact Or.inl h
          · simp only [phOff_none] at a5
            exact Or.inr ⟨pos, np', hp', heq, a1, a2, a3, a4, by omega⟩
        · rw [if_neg hz]
          have hnpm : np - 1 < lsp.length := by omega
          rw [getE_ok lsp (np - 1) hnpm, ok_bind]
          obtain ⟨hb1, hb2⟩ := hinv (np - 1) hnpm
          rw [kmpBacktrack_eq _ hp hb1 (by omega), ok_bind]
          have hmu' : muIn haystack.length
              ((lsp[np - 1]).needle - (lsp[np - 1]).haystack)
              (hp - (lsp[np - 1]).haystack) < fuel :=
            lt_of_lt_of_le (muEF haystack.length np hp (lsp[np - 1]).needle
              (lsp[np - 1]).haystack (by omega) hb1 hle hhp) (by omega)
          by_cases hk : (lsp[np - 1]).haystack = 0
          · rw [if_pos hk]
            obtain ⟨res, hres, hpost⟩ := ih (some hi)
              ((lsp[np - 1]).needle - (lsp[np - 1]).haystack)
              (hp - (lsp[np - 1]).haystack)
              (by omega) (by omega) (by simp only [phOff_some]; omega)
              (by rw [muPh_some]; exact hmu')
            refine ⟨res, hres, ?_⟩
            rcases hpost with h | ⟨pos, np', hp', heq, a1, a2, a3, a4, a5⟩
            · exact Or.inl h
            · simp only [phOff_some] at a5
              exact Or.inr ⟨pos, np', hp', heq, a1, a2, a3, a4, by omega⟩
          · rw [if_neg hk]
            have hhpx : hp - (lsp[np - 1]).haystack < haystack.length := by omega
            rw [getE_ok haystack (hp - (lsp[np - 1]).haystack) hhpx, ok_bind]
            obtain ⟨res, hres, hpost⟩ := ih
              (some haystack[hp - (lsp[np - 1]).haystack])
              ((lsp[np - 1]).needle - (lsp[np - 1]).haystack)
              (hp - (lsp[np - 1]).haystack)
              (by omega) (by omega) (by simp only [phOff_some]; omega)
              (by rw [muPh_some]; exact hmu')
            refine ⟨res, hres, ?_⟩
            rcases hpost with h | ⟨pos, np', hp', heq, a1, a2, a3, a4, a5⟩
            · exact Or.inl h
            · simp only [phOff_some] at a5
              exact Or.inr ⟨pos, np', hp', heq, a1, a2, a3, a4, by omega⟩


theorem loopFuel_gt (hl np hp : Nat) (hhp : hp ≤ hl) :
    muOut hl np hp < loopFuel hl := by
  unfold muOut loopFuel
  have h1 : (hl - (hp - np)) * (2 * hl + 2) ≤ hl * (2 * hl + 2) :=
    Nat.mul_le_mul_right _ (by omega)
  have h2 : (hl + 1) * (2 * hl + 2) = hl * (2 * hl + 2) + (2 * hl + 2) := by ring
  omega

theorem kmpNext_ok {N H : Type} (mh : N → H → Bool) (ov : Bool)
    (needle : List N) (lsp : List KmpTableItem) (haystack : List H)
    (hL : 1 ≤ needle.length) (hlen : lsp.length = needle.length)
    (hinv : TableInv lsp) (np hp : Nat) (hnp : np < needle.length)
    (hhp : hp ≤ haystack.length) (hle : np ≤ hp) :
    ∃ res, kmpNext mh ov needle lsp haystack np hp = Except.ok res ∧
      (res = NextRes.done ∨
       ∃ pos np' hp', res = NextRes.found pos np' hp' ∧
         np' < needle.length ∧ hp' ≤ haystack.length ∧
         pos + needle.length ≤ haystack.length ∧
         pos + np' + 1 ≤ hp' ∧ hp ≤ pos + np) := by
  rw [kmpNext]
  rw [subE_ok (hp + needle.length) np (by omega), ok_bind]
  by_cases hend : haystack.length < hp + needle.length - np
  · rw [if_pos hend]
    exact ⟨NextRes.done, rfl, Or.inl rfl⟩
  · rw [if_neg hend, if_neg (by omega)]
    obtain ⟨res, hres, hpost⟩ := kmpLoop_ok mh ov needle lsp haystack hL hlen hinv
      (loopFuel haystack.length) none np hp hnp hhp
      (by simp only [phOff_none]; omega)
      (by rw [muPh_none]; exact loopFuel_gt haystack.length np hp hhp)
    refine ⟨res, hres, ?_⟩
    rcases hpost with h | ⟨pos, np', hp', heq, a1, a2, a3, a4, a5⟩
    · exact Or.inl h
    · simp only [phOff_none] at a5
      exact Or.inr ⟨pos, np', hp', heq, a1, a2, a3, a4, by omega⟩

theorem kmpRun_ok {N H : Type} (mh : N → H → Bool) (ov : Bool)
    (needle : List N) (lsp : List KmpTableItem) (haystack : List H)
    (hL : 1 ≤ needle.length) (hlen : lsp.length = needle.length)
    (hinv : TableInv lsp) :
    ∀ fuel np hp, np < needle.length → hp ≤ haystack.length → np ≤ hp →
      haystack.length + 1 ≤ fuel + (hp - np) →
      ∃ l, kmpRun mh ov needle lsp haystack fuel np hp = Except.ok l ∧
        l.Pairwise (· < ·) ∧
        ∀ p ∈ l, hp ≤ p + np ∧ p + needle.length ≤ haystack.length := by
  intro fuel
  induction fuel with
  | zero =>
    intro np hp hnp hhp hle hfuel
    omega
  | succ fuel ih =>
    intro np hp hnp hhp hle hfuel
    rw [kmpRun]
    obtain ⟨res, hres, hpost⟩ :=
      kmpNext_ok mh ov needle lsp haystack hL hlen hinv np hp hnp hhp hle
    rw [hres, ok_bind]
    rcases hpost with h | ⟨pos, np', hp', heq, a1, a2, a3, a4, a5⟩
    · subst h
      exact ⟨[], rfl, List.Pairwise.nil, by intro p hp; cases hp⟩
    · subst heq
      obtain ⟨rest, hrest, hpair, hbnd⟩ := ih np' hp' a1 a2 (by omega) (by omega)
      dsimp only
      rw [hrest, ok_bind]
      refine ⟨pos :: rest, rfl, ?_, ?_⟩
      · rw [List.pairwise_cons]
        refine ⟨?_, hpair⟩
        intro q hq
        have := hbnd q hq
        omega
      · intro p hp
        rcases List.mem_cons.mp hp with h | h
        · subst h
          exact ⟨by omega, by omega⟩
        · have := hbnd p h
          exact ⟨by omega, by omega⟩

theorem kmpSearch_ok {N H : Type} (P G : N → N → Bool) (mh : N → H → Bool)
    (ov : Bool) (needle : List N) (haystack : List H) :
    ∃ l, kmpSearch P G mh ov needle haystack = Except.ok l ∧
      l.Pairwise (· < ·) ∧
      ∀ p ∈ l, p + needle.length ≤ haystack.length := by
  obtain ⟨lsp, hlsp, hlen, hinv, h0⟩ := kmpTable_ok P G needle
  rw [kmpSearch, hlsp, ok_bind]
  match hn : needle with
  | [] =>
    rw [kmpRun_nil_eq mh ov lsp haystack (haystack.length + 2) 0 (by omega) (by omega)]
    refine ⟨_, rfl, ?_, ?_⟩
    · simp only [Nat.sub_zero]
      have := List.pairwise_lt_range' 0 (haystack.length + 1) 1 (by omega)
      simpa using this
    · intro p hp
      simp only [Nat.sub_zero] at hp
      have := List.mem_range'_1.mp hp
      simp only [List.length_nil]
      omega
  | n0 :: rest =>
    obtain ⟨l, hl, hpair, hbnd⟩ := kmpRun_ok mh ov (n0 :: rest) lsp haystack
      (by simp) hlen hinv (haystack.length + 2) 0 0 (by simp) (by omega) (by omega)
      (by omega)
    refine ⟨l, hl, hpair, fun p hp => (hbnd p hp).2⟩

/-! ## Classical KMP: borders, table characterization, search characterization -/

theorem concat_suffix_concat (s t : List α) (a b : α) :
    s ++ [a] <:+ t ++ [b] ↔ a = b ∧ s <:+ t := by
  rw [← List.reverse_prefix, List.reverse_append, List.reverse_append]
  simp only [List.reverse_singleton, List.singleton_append]
  rw [List.cons_prefix_cons, List.reverse_prefix]

theorem take_succ_get (l : List α) (n : Nat) (h : n < l.length) :
    l.take (n + 1) = l.take n ++ [l[n]] := by
  rw [List.take_succ, List.getElem?_eq_getElem h]
  rfl

theorem take_suffix_ext (u v : List α) (c g : Nat) (hc : c < u.length)
    (hg : g < v.length) :
    u.take (c + 1) <:+ v.take (g + 1) ↔ u.take c <:+ v.take g ∧ u[c] = v[g] := by
  rw [take_succ_get u c hc, take_succ_get v g hg, concat_suffix_concat]
  tauto

theorem take_suffix_sub (u v : List α) :
    ∀ d c g, c ≤ u.length → g ≤ v.length → d ≤ c → d ≤ g →
      u.take c <:+ v.take g → u.take (c - d) <:+ v.take (g - d) := by
  intro d
  induction d with
  | zero =>
    intro c g _ _ _ _ h
    simpa using h
  | succ d ih =>
    intro c g hc hg hdc hdg h
    have hc1 : c - 1 < u.length := by omega
    have hg1 : g - 1 < v.length := by omega
    have hcc : c = (c - 1) + 1 := by omega
    have hgg : g = (g - 1) + 1 := by omega
    rw [hcc, hgg, take_suffix_ext u v (c - 1) (g - 1) hc1 hg1] at h
    have hres := ih (c - 1) (g - 1) (by omega) (by omega) (by omega) (by omega) h.1
    have e1 : c - (d + 1) = (c - 1) - d := by omega
    have e2 : g - (d + 1) = (g - 1) - d := by omega
    rw [e1, e2]
    exact hres

theorem maxBorder_lt_length [DecidableEq α] (u : List α) (h : u ≠ []) :
    maxBorder u < u.length := by
  have h1 := Nat.findGreatest_le (P := fun c => c < u.length ∧ u.take c <:+ u)
    (u.length - 1)
  have h2 : 0 < u.length := List.length_pos.mpr h
  unfold maxBorder
  omega

theorem maxBorder_suffix [DecidableEq α] (u : List α) :
    u.take (maxBorder u) <:+ u := by
  by_cases h0 : maxBorder u = 0
  · rw [h0]
    simp [List.nil_suffix]
  · unfold maxBorder at h0 ⊢
    rcases (Nat.findGreatest_eq_zero_iff).not.mp h0 with h
    push_neg at h
    obtain ⟨k, hk0, hkn, hk⟩ := h
    exact (Nat.findGreatest_spec (P := fun c => c < u.length ∧ u.take c <:+ u)
      hkn hk).2

theorem maxBorder_maximal [DecidableEq α] (u : List α) (c : Nat) (hc : c < u.length)
    (hsuf : u.take c <:+ u) : c ≤ maxBorder u :=
  Nat.le_findGreatest (by omega) ⟨hc, hsuf⟩

theorem eqCap_true [DecidableEq α] (a b : α) : eqCap a b = true ↔ a = b := by
  simp [eqCap]

theorem take_take_of_le (l : List α) (a b : Nat) (h : a ≤ b) :
    (l.take b).take a = l.take a := by
  rw [List.take_take, Nat.min_eq_left h]

theorem tableLoop_border [DecidableEq α] (needle : List α) (lsp : List KmpTableItem)
    (p : Nat) (hp : p < needle.length)
    (hent : ∀ i, i < p → lsp[i]? = some ⟨maxBorder (needle.take (i + 1)), 0⟩) :
    ∀ fuel j, j < fuel → j < p → needle.take j <:+ needle.take p →
      (∀ c, c < p → needle.take c <:+ needle.take p → j < c →
        ¬(needle.take (c + 1) <:+ needle.take (p + 1))) →
      kmpTableLoop eqCap eqCap needle lsp (needle[p]) fuel ⟨j, 0⟩ =
        Except.ok ⟨maxBorder (needle.take (p + 1)), 0⟩ := by
  intro fuel
  induction fuel with
  | zero => intro j h0; omega
  | succ fuel ih =>
    intro j hjf hjp hsuf hskip
    rw [kmpTableLoop]
    have hjlen : j < needle.length := by omega
    rw [getE_ok needle j hjlen, ok_bind]
    have hlenp1 : (needle.take (p + 1)).length = p + 1 := by
      rw [List.length_take]; omega
    have htpne : needle.take (p + 1) ≠ [] := by
      intro h
      rw [h] at hlenp1
      simp at hlenp1
    by_cases heq : needle[p] = needle[j]
    · rw [if_pos ((eqCap_true _ _).mpr heq)]
      rw [if_pos rfl, if_pos ((eqCap_true _ _).mpr heq)]
      dsimp only
      -- the result entry is ⟨j + 1, 0⟩; show j + 1 = maxBorder (needle.take (p+1))
      have hcand : needle.take (j + 1) <:+ needle.take (p + 1) := by
        rw [take_suffix_ext needle needle j p hjlen hp]
        exact ⟨hsuf, heq.symm⟩
      have hle : j + 1 ≤ maxBorder (needle.take (p + 1)) := by
        apply maxBorder_maximal (needle.take (p + 1)) (j + 1) (by omega)
        rw [take_take_of_le needle (j + 1) (p + 1) (by omega)]
        exact hcand
      have hge : maxBorder (needle.take (p + 1)) ≤ j + 1 := by
        set m := maxBorder (needle.take (p + 1)) with hm
        by_cases hm0 : m = 0
        · omega
        · have hmlt : m < p + 1 := by
            have := maxBorder_lt_length (needle.take (p + 1)) htpne
            omega
          have hmsuf : needle.take m <:+ needle.take (p + 1) := by
            have := maxBorder_suffix (needle.take (p + 1))
            rwa [take_take_of_le needle m (p + 1) (by omega)] at this
          have hmm : m = (m - 1) + 1 := by omega
          rw [hmm, take_suffix_ext needle needle (m - 1) p (by omega) hp] at hmsuf
          by_cases hmj : m - 1 ≤ j
          · omega
          · exfalso
            refine hskip (m - 1) (by omega) hmsuf.1 (by omega) ?_
            rw [← hmm]
            have := maxBorder_suffix (needle.take (p + 1))
            rwa [take_take_of_le needle m (p + 1) (by omega)] at this
      have hfin : maxBorder (needle.take (p + 1)) = j + 1 := by omega
      rw [hfin]
    · rw [if_neg (by rw [eqCap_true]; exact heq)]
      by_cases hj0 : j = 0
      · rw [if_pos (show (KmpTableItem.mk j 0).needle = 0 from hj0)]
        subst hj0
        have hmb : maxBorder (needle.take (p + 1)) = 0 := by
          by_contra hm0
          have hmlt : maxBorder (needle.take (p + 1)) < p + 1 := by
            have := maxBorder_lt_length (needle.take (p + 1)) htpne
            omega
          set m := maxBorder (needle.take (p + 1)) with hm
          have hmsuf : needle.take m <:+ needle.take (p + 1) := by
            have := maxBorder_suffix (needle.take (p + 1))
            rwa [take_take_of_le needle m (p + 1) (by omega)] at this
          have hmm : m = (m - 1) + 1 := by omega
          rw [hmm, take_suffix_ext needle needle (m - 1) p (by omega) hp] at hmsuf
          by_cases hm1 : m - 1 = 0
          · obtain ⟨hms, hme⟩ := hmsuf
            simp only [hm1] at hme
            exact heq hme.symm
          · refine hskip (m - 1) (by omega) hmsuf.1 (by omega) ?_
            rw [← hmm]
            have := maxBorder_suffix (needle.take (p + 1))
            rwa [take_take_of_le needle m (p + 1) (by omega)] at this
        rw [hmb]
      · rw [if_neg (by simpa using hj0)]
        dsimp only
        have hj1 : j - 1 < p := by omega
        have hgetb : getE lsp (j - 1) =
            Except.ok ⟨maxBorder (needle.take (j - 1 + 1)), 0⟩ := by
          unfold getE
          rw [hent (j - 1) hj1]
        rw [hgetb, ok_bind]
        have hjj : j - 1 + 1 = j := by omega
        rw [hjj]
        have htjlen : (needle.take j).length = j := by
          rw [List.length_take]; omega
        have htjne : needle.take j ≠ [] := by
          intro h
          rw [h] at htjlen
          simp at htjlen
          omega
        have hj'lt : maxBorder (needle.take j) < j := by
          have := maxBorder_lt_length (needle.take j) htjne
          omega
        apply ih (maxBorder (needle.take j)) (by omega) (by omega)
        · -- needle.take (maxBorder (take j)) <:+ needle.take p
          have h1 : needle.take (maxBorder (needle.take j)) <:+ needle.take j := by
            have := maxBorder_suffix (needle.take j)
            rwa [take_take_of_le needle _ j (by omega)] at this
          exact h1.trans hsuf
        · -- skip invariant for the new j
          intro c hcp hcsuf hcgt
          by_cases hcj : j < c
          · exact hskip c hcp hcsuf hcj
          · by_cases hcej : c = j
            · subst hcej
              intro hext
              rw [take_suffix_ext needle needle c p (by omega) hp] at hext
              exact heq hext.2.symm
            · -- maxBorder (take j) < c < j
              exfalso
              have hcltj : c < j := by omega
              have hcs : needle.take c <:+ needle.take j := by
                apply List.suffix_of_suffix_length_le hcsuf hsuf
                rw [List.length_take, List.length_take]
                omega
              have : c ≤ maxBorder (needle.take j) := by
                apply maxBorder_maximal (needle.take j) c (by omega)
                rwa [take_take_of_le needle c j (by omega)]
              omega

theorem tableGo_border [DecidableEq α] (needle : List α) :
    ∀ (rest : List α) (lsp : List KmpTableItem), 1 ≤ lsp.length →
      lsp.length + rest.length = needle.length →
      needle.drop lsp.length = rest →
      (∀ i, i < lsp.length → lsp[i]? = some ⟨maxBorder (needle.take (i + 1)), 0⟩) →
      kmpTableGo eqCap eqCap needle rest lsp = Except.ok (borderTable needle) := by
  intro rest
  induction rest with
  | nil =>
    intro lsp h1 hsum hdrop hent
    rw [kmpTableGo]
    have hsum' : lsp.length = needle.length := by
      simpa using hsum
    congr 1
    apply List.ext_getElem?
    intro i
    by_cases hi : i < lsp.length
    · rw [hent i hi]
      unfold borderTable
      rw [List.getElem?_eq_getElem (by simpa using (by omega : i < needle.length)),
        List.getElem_map, List.getElem_range]
    · rw [List.getElem?_eq_none (by omega)]
      unfold borderTable
      rw [List.getElem?_eq_none (by simp; omega)]
  | cons nitem rest ih =>
    intro lsp h1 hsum hdrop hent
    rw [kmpTableGo]
    have hsum2 : lsp.length + rest.length + 1 = needle.length := by
      simp only [List.length_cons] at hsum
      omega
    have hplen : lsp.length < needle.length := by omega
    have hnitem : nitem = needle[lsp.length] := by
      have h0 : (needle.drop lsp.length)[0]? = some nitem := by
        rw [hdrop]
        simp
      rw [List.getElem?_drop, Nat.add_zero, List.getElem?_eq_getElem hplen] at h0
      exact (Option.some_inj.mp h0).symm
    have hgetlast : getE lsp (lsp.length - 1) =
        Except.ok ⟨maxBorder (needle.take lsp.length), 0⟩ := by
      unfold getE
      rw [hent (lsp.length - 1) (by omega)]
      have he : lsp.length - 1 + 1 = lsp.length := by omega
      rw [he]
    rw [hgetlast, ok_bind]
    have htpne : needle.take lsp.length ≠ [] := by
      intro h
      have hlen := congrArg List.length h
      rw [List.length_take] at hlen
      simp only [List.length_nil] at hlen
      omega
    have hmblt : maxBorder (needle.take lsp.length) < lsp.length := by
      have h2 := maxBorder_lt_length (needle.take lsp.length) htpne
      rw [List.length_take] at h2
      omega
    have hloop := tableLoop_border needle lsp lsp.length hplen
      (fun i hi => hent i hi)
      (needle.length + 1) (maxBorder (needle.take lsp.length)) (by omega) (by omega)
      (by
        have hs := maxBorder_suffix (needle.take lsp.length)
        rwa [take_take_of_le needle _ lsp.length (by omega)] at hs)
      (by
        intro c hcp hcsuf hcgt
        exfalso
        have hcle : c ≤ maxBorder (needle.take lsp.length) := by
          apply maxBorder_maximal (needle.take lsp.length) c
            (by rw [List.length_take]; omega)
          rwa [take_take_of_le needle c lsp.length (by omega)]
        omega)
    rw [hnitem, hloop, ok_bind]
    apply ih
    · simp
    · simp only [List.length_append, List.length_singleton, List.length_cons,
        List.length_nil] at hsum ⊢
      omega
    · rw [List.length_append, List.length_singleton]
      have hd : needle.drop (lsp.length + 1) = List.drop 1 (needle.drop lsp.length) := by
        rw [List.drop_drop]
      rw [hd, hdrop]
      rfl
    · intro i hi
      rw [List.length_append, List.length_singleton] at hi
      by_cases hilt : i < lsp.length
      · rw [List.getElem?_append_left hilt]
        exact hent i hilt
      · have hieq : i = lsp.length := by omega
        subst hieq
        rw [List.getElem?_append_right (by omega)]
        simp

theorem kmpTable_border [DecidableEq α] (needle : List α) :
    kmpTable eqCap eqCap needle = Except.ok (borderTable needle) := by
  match needle with
  | [] =>
    rw [kmpTable]
    unfold borderTable
    simp
  | n0 :: rest =>
    rw [kmpTable]
    apply tableGo_border (n0 :: rest) rest [⟨0, 0⟩]
    · simp
    · simp
      omega
    · simp
    · intro i hi
      simp only [List.length_singleton] at hi
      have hi0 : i = 0 := by omega
      subst hi0
      have hmb : maxBorder ((n0 :: rest).take 1) = 0 := by
        unfold maxBorder
        simp
      rw [hmb]
      rfl

theorem kmpLoop_mono {N H : Type} (mh : N → H → Bool) (ov : Bool)
    (needle : List N) (lsp : List KmpTableItem) (haystack : List H) :
    ∀ fuel np hp ph r,
      kmpLoop mh ov needle lsp haystack fuel np hp ph = Except.ok r →
      kmpLoop mh ov needle lsp haystack (fuel + 1) np hp ph = Except.ok r := by
  intro fuel
  induction fuel with
  | zero =>
    intro np hp ph r h
    rw [kmpLoop] at h
    cases h
  | succ fuel ih =>
    intro np hp ph r h
    cases ph with
    | none =>
      rw [kmpLoop] at h ⊢
      by_cases hend : haystack.length ≤ hp
      · rw [if_pos hend] at h ⊢
        exact h
      · rw [if_neg hend] at h ⊢
        cases hx : getE haystack hp with
        | error e => rw [hx, error_bind] at h; cases h
        | ok hi =>
          simp only [hx, ok_bind] at h ⊢
          exact ih _ _ _ _ h
    | some hi =>
      rw [kmpLoop] at h ⊢
      cases hx : getE needle np with
      | error e => rw [hx, error_bind] at h; cases h
      | ok ne =>
        simp only [hx, ok_bind] at h ⊢
        by_cases hmh : mh ne hi
        · rw [if_pos hmh] at h ⊢
          by_cases hfin : np + 1 = needle.length
          · rw [if_pos hfin] at h ⊢
            exact h
          · rw [if_neg hfin] at h ⊢
            exact ih _ _ _ _ h
        · rw [if_neg hmh] at h ⊢
          by_cases hz : np = 0
          · rw [if_pos hz] at h ⊢
            exact ih _ _ _ _ h
          · rw [if_neg hz] at h ⊢
            cases hb : getE lsp (np - 1) with
            | error e => rw [hb, error_bind] at h; cases h
            | ok back =>
              simp only [hb, ok_bind] at h ⊢
              cases hs : kmpBacktrack back hp with
              | error e => rw [hs, error_bind] at h; cases h
              | ok s =>
                simp only [hs, ok_bind] at h ⊢
                by_cases hk : back.haystack = 0
                · rw [if_pos hk] at h ⊢
                  exact ih _ _ _ _ h
                · rw [if_neg hk] at h ⊢
                  cases hx2 : getE haystack s.2 with
                  | error e => rw [hx2, error_bind] at h; cases h
                  | ok hi2 =>
                    simp only [hx2, ok_bind] at h ⊢
                    exact ih _ _ _ _ h

theorem kmpLoop_mono_le {N H : Type} (mh : N → H → Bool) (ov : Bool)
    (needle : List N) (lsp : List KmpTableItem) (haystack : List H)
    (f1 f2 np hp : Nat) (ph : Option H) (r : NextRes) (hle : f1 ≤ f2)
    (h : kmpLoop mh ov needle lsp haystack f1 np hp ph = Except.ok r) :
    kmpLoop mh ov needle lsp haystack f2 np hp ph = Except.ok r := by
  obtain ⟨d, hd⟩ := Nat.le.dest hle
  subst hd
  clear hle
  induction d with
  | zero => exact h
  | succ d ih =>
    rw [← Nat.add_assoc]
    exact kmpLoop_mono mh ov needle lsp haystack (f1 + d) np hp ph r ih

theorem kmpLoop_det {N H : Type} (mh : N → H → Bool) (ov : Bool)
    (needle : List N) (lsp : List KmpTableItem) (haystack : List H)
    (f1 f2 np hp : Nat) (ph : Option H) (r1 r2 : NextRes)
    (h1 : kmpLoop mh ov needle lsp haystack f1 np hp ph = Except.ok r1)
    (h2 : kmpLoop mh ov needle lsp haystack f2 np hp ph = Except.ok r2) :
    r1 = r2 := by
  rcases Nat.le_total f1 f2 with hle | hle
  · have hh := kmpLoop_mono_le mh ov needle lsp haystack f1 f2 np hp ph r1 hle h1
    rw [hh] at h2
    exact Except.ok.inj h2
  · have hh := kmpLoop_mono_le mh ov needle lsp haystack f2 f1 np hp ph r2 hle h2
    rw [hh] at h1
    exact (Except.ok.inj h1).symm

theorem borderTable_length [DecidableEq α] (needle : List α) :
    (borderTable needle).length = needle.length := by
  unfold borderTable
  rw [List.length_map, List.length_range]

theorem borderTable_getE [DecidableEq α] (needle : List α) (i : Nat)
    (h : i < needle.length) :
    getE (borderTable needle) i =
      Except.ok ⟨maxBorder (needle.take (i + 1)), 0⟩ := by
  unfold getE borderTable
  rw [List.getElem?_map, List.getElem?_range h]
  rfl

theorem kmpBacktrack_zero (m hp : Nat) :
    kmpBacktrack ⟨m, 0⟩ hp = Except.ok (m, hp) := by
  unfold kmpBacktrack
  rw [if_pos rfl]

theorem SInv_le (needle haystack : List α) (np hp : Nat)
    (h : SInv needle haystack np hp) (hhp : hp ≤ haystack.length) : np ≤ hp := by
  have h1 := h.2.1.length_le
  rw [List.length_take, List.length_take] at h1
  have h2 := h.1
  omega

theorem SInv_zero (needle haystack : List α) (hL : 1 ≤ needle.length) :
    SInv needle haystack 0 0 := by
  refine ⟨by omega, by simp [List.nil_suffix], ?_⟩
  intro c hc hsuf
  have h1 := hsuf.length_le
  rw [List.length_take, List.length_take] at h1
  omega

theorem SInv_found [DecidableEq α] (needle haystack : List α)
    (hL : 1 ≤ needle.length) (g : Nat) (_hg : g ≤ haystack.length)
    (hocc : needle <:+ haystack.take g) :
    SInv needle haystack (maxBorder needle) g := by
  have hne : needle ≠ [] := by
    intro h
    rw [h] at hL
    simp at hL
  refine ⟨maxBorder_lt_length needle hne, ?_, ?_⟩
  · exact (maxBorder_suffix needle).trans hocc
  · intro c hc hsuf
    apply maxBorder_maximal needle c hc
    apply List.suffix_of_suffix_length_le hsuf hocc
    rw [List.length_take]
    omega

theorem inner_char [DecidableEq α] (needle haystack : List α)
    (hL : 1 ≤ needle.length) (hp : Nat) (hhp : hp < haystack.length) :
    ∀ j, j < needle.length →
      needle.take j <:+ haystack.take hp →
      (∀ c, c < needle.length → needle.take c <:+ haystack.take hp → j < c →
        ¬(needle.take (c + 1) <:+ haystack.take (hp + 1))) →
      (needle <:+ haystack.take (hp + 1) ∧
        Reaches eqCap true needle (borderTable needle) haystack j (hp + 1)
          (some (haystack[hp]))
          (NextRes.found (hp + 1 - needle.length) (maxBorder needle) (hp + 1))) ∨
      (¬(needle <:+ haystack.take (hp + 1)) ∧
        ∃ K, SInv needle haystack K (hp + 1) ∧
          ∀ r, Reaches eqCap true needle (borderTable needle) haystack K (hp + 1) none r →
            Reaches eqCap true needle (borderTable needle) haystack j (hp + 1)
              (some (haystack[hp])) r) := by
  intro j
  induction j using Nat.strong_induction_on with
  | _ j ih =>
    intro hj hsuf hskip
    by_cases heq : needle[j] = haystack[hp]
    · have hext : needle.take (j + 1) <:+ haystack.take (hp + 1) :=
        (take_suffix_ext needle haystack j hp hj hhp).mpr ⟨hsuf, heq⟩
      by_cases hfin : j + 1 = needle.length
      · left
        have hocc : needle <:+ haystack.take (hp + 1) := by
          have hh := hext
          rw [hfin, List.take_length] at hh
          exact hh
        refine ⟨hocc, 1, ?_⟩
        rw [kmpLoop]
        rw [getE_ok needle j hj, ok_bind]
        rw [if_pos (by rw [eqCap_true]; exact heq)]
        rw [if_pos hfin]
        have hLle : needle.length ≤ hp + 1 := by
          have h1 := hsuf.length_le
          rw [List.length_take, List.length_take] at h1
          omega
        rw [subE_ok (hp + 1) needle.length hLle, ok_bind]
        rw [if_pos rfl]
        rw [Nat.add_sub_cancel]
        rw [borderTable_getE needle j hj, ok_bind]
        rw [kmpBacktrack_zero, ok_bind]
        have he : needle.take (j + 1) = needle := by
          rw [hfin, List.take_length]
        rw [he]
      · right
        constructor
        · intro hocc
          have hLlt : needle.length - 1 < needle.length := by omega
          have hocc2 : needle.take (needle.length - 1 + 1) <:+
              haystack.take (hp + 1) := by
            rw [show needle.length - 1 + 1 = needle.length by omega, List.take_length]
            exact hocc
          have hocc' := (take_suffix_ext needle haystack (needle.length - 1)
            hp hLlt hhp).mp hocc2
          exact hskip (needle.length - 1) hLlt hocc'.1 (by omega) hocc2
        · refine ⟨j + 1, ⟨by omega, hext, ?_⟩, ?_⟩
          · intro c hc hcsuf
            by_contra hgt
            push_neg at hgt
            have hc1 : c - 1 < needle.length := by omega
            have hcsuf2 : needle.take (c - 1 + 1) <:+ haystack.take (hp + 1) := by
              rw [show c - 1 + 1 = c by omega]
              exact hcsuf
            have hext2 := (take_suffix_ext needle haystack (c - 1) hp hc1 hhp).mp hcsuf2
            exact hskip (c - 1) hc1 hext2.1 (by omega) hcsuf2
          · rintro r ⟨f, hf⟩
            refine ⟨f + 1, ?_⟩
            rw [kmpLoop]
            rw [getE_ok needle j hj, ok_bind]
            rw [if_pos (by rw [eqCap_true]; exact heq)]
            rw [if_neg hfin]
            exact hf
    · by_cases hj0 : j = 0
      · subst hj0
        right
        constructor
        · intro hocc
          have hLlt : needle.length - 1 < needle.length := by omega
          have hocc2 : needle.take (needle.length - 1 + 1) <:+
              haystack.take (hp + 1) := by
            rw [show needle.length - 1 + 1 = needle.length by omega, List.take_length]
            exact hocc
          have hocc' := (take_suffix_ext needle haystack (needle.length - 1)
            hp hLlt hhp).mp hocc2
          by_cases hL1 : needle.length - 1 = 0
          · have hh := hocc'.2
            simp only [hL1] at hh
            exact heq hh
          · exact hskip (needle.length - 1) hLlt hocc'.1 (by omega) hocc2
        · refine ⟨0, ⟨by omega, by simp [List.nil_suffix], ?_⟩, ?_⟩
          · intro c hc hcsuf
            by_contra hgt
            push_neg at hgt
            have hc1 : c - 1 < needle.length := by omega
            have hcsuf2 : needle.take (c - 1 + 1) <:+ haystack.take (hp + 1) := by
              rw [show c - 1 + 1 = c by omega]
              exact hcsuf
            have hext2 := (take_suffix_ext needle haystack (c - 1) hp hc1 hhp).mp hcsuf2
            by_cases hc2 : c - 1 = 0
            · have hh := hext2.2
              simp only [hc2] at hh
              exact heq hh
            · exact hskip (c - 1) hc1 hext2.1 (by omega) hcsuf2
          · rintro r ⟨f, hf⟩
            refine ⟨f + 1, ?_⟩
            rw [kmpLoop]
            rw [getE_ok needle 0 (by omega), ok_bind]
            rw [if_neg (by rw [eqCap_true]; exact heq)]
            rw [if_pos rfl]
            exact hf
      · have htjlen : (needle.take j).length = j := by
          rw [List.length_take]
          omega
        have htjne : needle.take j ≠ [] := by
          intro h
          rw [h] at htjlen
          simp at htjlen
          omega
        have hj'lt : maxBorder (needle.take j) < j := by
          have hml := maxBorder_lt_length (needle.take j) htjne
          omega
        have hstep : ∀ r,
            Reaches eqCap true needle (borderTable needle) haystack
              (maxBorder (needle.take j)) (hp + 1) (some (haystack[hp])) r →
            Reaches eqCap true needle (borderTable needle) haystack j (hp + 1)
              (some (haystack[hp])) r := by
          rintro r ⟨f, hf⟩
          refine ⟨f + 1, ?_⟩
          rw [kmpLoop]
          rw [getE_ok needle j hj, ok_bind]
          rw [if_neg (by rw [eqCap_true]; exact heq)]
          rw [if_neg hj0]
          rw [borderTable_getE needle (j - 1) (by omega), ok_bind]
          rw [show j - 1 + 1 = j by omega]
          rw [kmpBacktrack_zero, ok_bind]
          rw [if_pos rfl]
          exact hf
        have hsubsuf : needle.take (maxBorder (needle.take j)) <:+
            haystack.take hp := by
          have h1 : needle.take (maxBorder (needle.take j)) <:+ needle.take j := by
            have hs := maxBorder_suffix (needle.take j)
            rwa [take_take_of_le needle _ j (by omega)] at hs
          exact h1.trans hsuf
        have hskip' : ∀ c, c < needle.length →
            needle.take c <:+ haystack.take hp → maxBorder (needle.take j) < c →
            ¬(needle.take (c + 1) <:+ haystack.take (hp + 1)) := by
          intro c hc hcsuf hcgt hext
          by_cases hcj : j < c
          · exact hskip c hc hcsuf hcj hext
          · by_cases hcej : c = j
            · subst hcej
              have hh := (take_suffix_ext needle haystack c hp hc hhp).mp hext
              exact heq hh.2
            · have hcltj : c < j := by omega
              have hcs : needle.take c <:+ needle.take j := by
                apply List.suffix_of_suffix_length_le hcsuf hsuf
                rw [List.length_take, List.length_take]
                omega
              have hcle : c ≤ maxBorder (needle.take j) := by
                apply maxBorder_maximal (needle.take j) c (by omega)
                rwa [take_take_of_le needle c j (by omega)]
              omega
        have hsub := ih (maxBorder (needle.take j)) hj'lt (by omega) hsubsuf hskip'
        rcases hsub with ⟨hocc, hreach⟩ | ⟨hnocc, K, hKinv, hcont⟩
        · exact Or.inl ⟨hocc, hstep _ hreach⟩
        · exact Or.inr ⟨hnocc, K, hKinv, fun r hr => hstep r (hcont r hr)⟩

theorem outer_char [DecidableEq α] (needle haystack : List α)
    (hL : 1 ≤ needle.length) :
    ∀ gap hp np, haystack.length - hp = gap → hp ≤ haystack.length →
      SInv needle haystack np hp →
      ∃ r, Reaches eqCap true needle (borderTable needle) haystack np hp none r ∧
        ((r = NextRes.done ∧
          ∀ g, hp < g → g ≤ haystack.length → ¬(needle <:+ haystack.take g)) ∨
         (∃ g, r = NextRes.found (g - needle.length) (maxBorder needle) g ∧
           hp < g ∧ g ≤ haystack.length ∧ needle <:+ haystack.take g ∧
           ∀ g', hp < g' → g' < g → ¬(needle <:+ haystack.take g'))) := by
  intro gap
  induction gap with
  | zero =>
    intro hp np hgap hhp hinv
    refine ⟨NextRes.done, ⟨1, ?_⟩, Or.inl ⟨rfl, ?_⟩⟩
    · rw [kmpLoop]
      rw [if_pos (by omega : haystack.length ≤ hp)]
    · intro g hg1 hg2
      omega
  | succ gap ihgap =>
    intro hp np hgap hhp hinv
    have hhplt : hp < haystack.length := by omega
    have hstep : ∀ r,
        Reaches eqCap true needle (borderTable needle) haystack np (hp + 1)
          (some (haystack[hp])) r →
        Reaches eqCap true needle (borderTable needle) haystack np hp none r := by
      rintro r ⟨f, hf⟩
      refine ⟨f + 1, ?_⟩
      rw [kmpLoop]
      rw [if_neg (by omega : ¬haystack.length ≤ hp)]
      rw [getE_ok haystack hp hhplt, ok_bind]
      exact hf
    have hin := inner_char needle haystack hL hp hhplt np hinv.1 hinv.2.1
      (by
        intro c hc hcsuf hcgt
        exfalso
        have := hinv.2.2 c hc hcsuf
        omega)
    rcases hin with ⟨hocc, hreach⟩ | ⟨hnocc, K, hKinv, hcont⟩
    · refine ⟨NextRes.found (hp + 1 - needle.length) (maxBorder needle) (hp + 1),
        hstep _ hreach, Or.inr ⟨hp + 1, rfl, by omega, by omega, hocc, ?_⟩⟩
      intro g' hg1 hg2
      omega
    · obtain ⟨r, hr, hspec⟩ := ihgap (hp + 1) K (by omega) (by omega) hKinv
      refine ⟨r, hstep r (hcont r hr), ?_⟩
      rcases hspec with ⟨hdone, hnone⟩ | ⟨g, hg, hg1, hg2, hg3, hg4⟩
      · refine Or.inl ⟨hdone, ?_⟩
        intro g hga hgb
        by_cases hge : g = hp + 1
        · subst hge
          exact hnocc
        · exact hnone g (by omega) hgb
      · refine Or.inr ⟨g, hg, by omega, hg2, hg3, ?_⟩
        intro g' hga hgb
        by_cases hge : g' = hp + 1
        · subst hge
          exact hnocc
        · exact hg4 g' (by omega) hgb

theorem kmpNext_char [DecidableEq α] (needle haystack : List α)
    (hL : 1 ≤ needle.length) (np hp : Nat) (hhp : hp ≤ haystack.length)
    (hinv : SInv needle haystack np hp) (res : NextRes)
    (h : kmpNext eqCap true needle (borderTable needle) haystack np hp =
      Except.ok res) :
    (res = NextRes.done ∧
      ∀ g, hp < g → g ≤ haystack.length → ¬(needle <:+ haystack.take g)) ∨
    (∃ g, res = NextRes.found (g - needle.length) (maxBorder needle) g ∧
      hp < g ∧ g ≤ haystack.length ∧ needle <:+ haystack.take g ∧
      ∀ g', hp < g' → g' < g → ¬(needle <:+ haystack.take g')) := by
  have hnple := SInv_le needle haystack np hp hinv hhp
  rw [kmpNext] at h
  rw [subE_ok (hp + needle.length) np (by omega), ok_bind] at h
  by_cases hend : haystack.length < hp + needle.length - np
  · rw [if_pos hend] at h
    cases h
    refine Or.inl ⟨rfl, ?_⟩
    intro g hg1 hg2 hocc
    by_cases hcase : g ≤ hp + needle.length
    · have hocc' : needle.take needle.length <:+ haystack.take g := by
        rw [List.take_length]
        exact hocc
      have hstrip := take_suffix_sub needle haystack (g - hp) needle.length g
        (by omega) (by omega) (by omega) (by omega) hocc'
      rw [show g - (g - hp) = hp by omega] at hstrip
      have hcle := hinv.2.2 (needle.length - (g - hp)) (by omega) hstrip
      omega
    · omega
  · rw [if_neg hend, if_neg (by omega)] at h
    obtain ⟨r, ⟨f, hf⟩, hspec⟩ :=
      outer_char needle haystack hL (haystack.length - hp) hp np rfl hhp hinv
    have hdet := kmpLoop_det eqCap true needle (borderTable needle) haystack
      (loopFuel haystack.length) f np hp none res r h hf
    subst hdet
    exact hspec

theorem kmpRun_char [DecidableEq α] (needle haystack : List α)
    (hL : 1 ≤ needle.length) :
    ∀ fuel np hp l, hp ≤ haystack.length → SInv needle haystack np hp →
      kmpRun eqCap true needle (borderTable needle) haystack fuel np hp =
        Except.ok l →
      ∀ p, p ∈ l ↔ ∃ g, hp < g ∧ g ≤ haystack.length ∧
        needle <:+ haystack.take g ∧ p = g - needle.length := by
  intro fuel
  induction fuel with
  | zero =>
    intro np hp l hhp hinv h
    rw [kmpRun] at h
    cases h
  | succ fuel ih =>
    intro np hp l hhp hinv h
    rw [kmpRun] at h
    cases hres : kmpNext eqCap true needle (borderTable needle) haystack np hp with
    | error e => rw [hres, error_bind] at h; cases h
    | ok res =>
      rw [hres, ok_bind] at h
      have hchar := kmpNext_char needle haystack hL np hp hhp hinv res hres
      rcases hchar with ⟨hdone, hnone⟩ | ⟨g, hg, hg1, hg2, hg3, hg4⟩
      · subst hdone
        cases h
        intro p
        constructor
        · intro hmem
          cases hmem
        · rintro ⟨g, hga, hgb, hgc, _⟩
          exact absurd hgc (hnone g hga hgb)
      · subst hg
        dsimp only at h
        cases hrest : kmpRun eqCap true needle (borderTable needle) haystack
            fuel (maxBorder needle) g with
        | error e => rw [hrest, error_bind] at h; cases h
        | ok rest =>
          rw [hrest, ok_bind] at h
          cases h
          have hrinv := SInv_found needle haystack hL g hg2 hg3
          have hmem := ih (maxBorder needle) g rest hg2 hrinv hrest
          intro p
          constructor
          · intro hpin
            rcases List.mem_cons.mp hpin with hph | hpt
            · exact ⟨g, hg1, hg2, hg3, hph⟩
            · obtain ⟨g', hga, hgb, hgc, hgd⟩ := (hmem p).mp hpt
              exact ⟨g', by omega, hgb, hgc, hgd⟩
          · rintro ⟨g', hga, hgb, hgc, hgd⟩
            rcases Nat.lt_trichotomy g' g with hlt | heq | hgt
            · exact absurd hgc (hg4 g' hga hlt)
            · subst heq
              subst hgd
              exact List.mem_cons_self _ _
            · refine List.mem_cons_of_mem _ ((hmem p).mpr ⟨g', hgt, hgb, hgc, hgd⟩)

theorem occEnd_iff_occursAt (needle haystack : List α) (hL : 1 ≤ needle.length)
    (p : Nat) :
    (∃ g, 0 < g ∧ g ≤ haystack.length ∧ needle <:+ haystack.take g ∧
      p = g - needle.length) ↔ OccursAt needle haystack p := by
  constructor
  · rintro ⟨g, hg0, hgH, hocc, hp⟩
    obtain ⟨t, ht⟩ := hocc
    have hlen : t.length + needle.length = g := by
      have h1 := congrArg List.length ht
      rw [List.length_append, List.length_take] at h1
      have h2 : needle.length ≤ g := by
        have h3 := List.IsSuffix.length_le ⟨t, ht⟩
        rw [List.length_take] at h3
        omega
      omega
    have htl : t.length = p := by omega
    constructor
    · omega
    · have hdrop : (haystack.take g).drop t.length = needle := by
        rw [← ht, List.drop_left]
      rw [List.drop_take] at hdrop
      rw [htl] at hdrop
      rw [show g - p = needle.length by omega] at hdrop
      exact hdrop.symm
  · rintro ⟨hplen, hslice⟩
    refine ⟨p + needle.length, by omega, hplen, ?_, by omega⟩
    rw [List.take_add]
    rw [← hslice]
    exact List.suffix_append _ _

/-! ## Claim theorems (concrete computations) -/

/-- C1 is false as stated: with the case-insensitive capability model, the
needle `"aA"` produces the table `[(0,0), (1,1)]`; searching `"aA"` in
overlapping mode emits the match at 0 and then backtracks through the final
table entry `(needle := 1, haystack := 1)`, after which the needle cursor is
`0` - not the entry's `needle` value `1` as the claim states (the code
additionally subtracts the provisional `haystack` offset from the needle
cursor). -/
theorem claim_c1_counterexample :
    kmpTable ciFold ciExact "aA".toList = Except.ok [⟨0, 0⟩, ⟨1, 1⟩] ∧
    kmpNext ciFold true "aA".toList [⟨0, 0⟩, ⟨1, 1⟩] "aA".toList 0 0 =
      Except.ok (NextRes.found 0 0 1) ∧
    (KmpTableItem.mk 1 1).needle ≠ 0 :=
  ⟨rfl, rfl, by decide⟩

/-- C1 (amended): whenever the search iterator backtracks through a table
entry `back` (after an overlapping-mode match or on a mismatch with nonzero
needle cursor), the needle cursor is set to `back.needle` **minus
`back.haystack`**, and the haystack cursor is rewound by `back.haystack` -
both rewinds happening exactly when the provisional offset is nonzero. -/
theorem claim_c1_amended (back : KmpTableItem) (hp : Nat)
    (h1 : back.haystack ≤ back.needle) (h2 : back.haystack ≤ hp) :
    kmpBacktrack back hp =
      Except.ok (back.needle - back.haystack, hp - back.haystack) := by
  unfold kmpBacktrack
  by_cases h : back.haystack = 0
  · simp [h]
  · rw [if_neg h, subE_ok _ _ h1, ok_bind, subE_ok _ _ h2, ok_bind]

/-- Witness for C1 (amended) at the concrete table entry `(1, 1)`. -/
theorem claim_c1_witness :
    kmpBacktrack ⟨1, 1⟩ 2 = Except.ok (0, 1) :=
  claim_c1_amended ⟨1, 1⟩ 2 (by decide) (by decide)

/-- C4 is false as stated: under the case-insensitive capability model the
overlapping search for `"aBc"` in `"AbCaBcD"` yields the two matches
`[0, 3]`, not exactly one match at 3. -/
theorem claim_c4_counterexample :
    kmpSearch ciFold ciExact ciFold true "aBc".toList "AbCaBcD".toList =
      Except.ok [0, 3] ∧ ([0, 3] : List Nat) ≠ [3] :=
  ⟨rfl, by decide⟩

/-- C4 (amended): with the case-insensitive model (`is_match_possible` and
`match_haystack` fold case, `is_match_guaranteed` exact), searching `"aBc"`
yields `[0, 3]` in `"AbCaBcD"` and also `[0, 3]` in `"AbCaBCd"`; the spec's
stated results (`[3]` and no matches) are those of the exact-equality
model, as exercised by the repository's own test. -/
theorem claim_c4_amended :
    kmpSearch ciFold ciExact ciFold true "aBc".toList "AbCaBcD".toList =
      Except.ok [0, 3] ∧
    kmpSearch ciFold ciExact ciFold true "aBc".toList "AbCaBCd".toList =
      Except.ok [0, 3] ∧
    kmpSearch eqCap eqCap eqCap true "aBc".toList "AbCaBcD".toList =
      Except.ok [3] ∧
    kmpSearch eqCap eqCap eqCap true "aBc".toList "AbCaBCd".toList =
      Except.ok [] :=
  ⟨rfl, rfl, rfl, rfl⟩

/-- C5: for every haystack of length `k`, in either search mode and for any
capability model, the empty needle yields exactly the matches
`0, 1, ..., k` (that is, `k + 1` matches) and then terminates; in
particular the empty needle on the empty haystack yields exactly `[0]`. -/
theorem claim_c5_empty_needle {N H : Type} (P G : N → N → Bool)
    (mh : N → H → Bool) (ov : Bool) (haystack : List H) :
    kmpSearch P G mh ov ([] : List N) haystack =
      Except.ok (List.range (haystack.length + 1)) := by
  rw [kmpSearch, kmpTable]
  simp only [ok_bind]
  rw [kmpRun_nil_eq mh ov [] haystack (haystack.length + 2) 0 (by omega) (by omega)]
  rw [List.range_eq_range']
  simp

/-- C6: with exact-equality elements, the overlapping search for `"aa"` in
`"aaaaa"` yields `[0, 1, 2, 3]` and the non-overlapping search yields
`[0, 2]`. -/
theorem claim_c6_aa_aaaaa :
    kmpSearch eqCap eqCap eqCap true "aa".toList "aaaaa".toList =
      Except.ok [0, 1, 2, 3] ∧
    kmpSearch eqCap eqCap eqCap false "aa".toList "aaaaa".toList =
      Except.ok [0, 2] :=
  ⟨rfl, rfl⟩

/-- C7: when `is_match_possible` coincides with `is_match_guaranteed` (as in
the built-in primitive exact-equality model), every entry of the table built
by `kmp_table` has provisional offset 0. -/
theorem claim_c7_primitive_zero_offsets {N : Type} (P G : N → N → Bool)
    (needle : List N) (lsp : List KmpTableItem)
    (hPG : ∀ a b, P a b = G a b) (h : kmpTable P G needle = Except.ok lsp) :
    ∀ e ∈ lsp, e.haystack = 0 := by
  match needle with
  | [] =>
    rw [kmpTable] at h
    cases h
    intro e he
    cases he
  | n0 :: rest =>
    rw [kmpTable] at h
    refine kmpTableGo_haystack_zero P G hPG (n0 :: rest) rest [⟨0, 0⟩] lsp ?_ h
    intro e he
    simp only [List.mem_singleton] at he
    subst he
    rfl

/-- Witness for C7 at the primitive model on the needle `"aa"`, evaluated at
the table entry `(1, 0)`. -/
theorem claim_c7_witness :
    (KmpTableItem.mk 1 0).haystack = 0 :=
  claim_c7_primitive_zero_offsets eqCap eqCap "aa".toList
    [⟨0, 0⟩, ⟨1, 0⟩] (fun _ _ => rfl) (by rfl) ⟨1, 0⟩ (by decide)

/-- C10: for every needle and capability model, the table built by
`kmp_table` has the needle's length; entry 0 (when it exists) is `(0, 0)`;
and every entry at index `i` satisfies `haystack ≤ needle ≤ i`. -/
theorem claim_c10_table_shape {N : Type} (P G : N → N → Bool)
    (needle : List N) (lsp : List KmpTableItem)
    (h : kmpTable P G needle = Except.ok lsp) :
    lsp.length = needle.length ∧
    lsp[0]? = (if needle.length = 0 then none else some ⟨0, 0⟩) ∧
    ∀ i, (hi : i < lsp.length) →
      lsp[i].haystack ≤ lsp[i].needle ∧ lsp[i].needle ≤ i := by
  obtain ⟨lsp', h', hlen, hinv, h0⟩ := kmpTable_ok P G needle
  rw [h] at h'
  cases h'
  exact ⟨hlen, h0, hinv⟩

/-- Witness for C10 on the needle `"aaab"` with the primitive model. -/
theorem claim_c10_witness :
    ([⟨0, 0⟩, ⟨1, 0⟩, ⟨2, 0⟩, ⟨0, 0⟩] : List KmpTableItem).length =
      "aaab".toList.length ∧
    ([⟨0, 0⟩, ⟨1, 0⟩, ⟨2, 0⟩, ⟨0, 0⟩] : List KmpTableItem)[0]? =
      (if "aaab".toList.length = 0 then none else some ⟨0, 0⟩) ∧
    ∀ i, (hi : i < ([⟨0, 0⟩, ⟨1, 0⟩, ⟨2, 0⟩, ⟨0, 0⟩] : List KmpTableItem).length) →
      ([⟨0, 0⟩, ⟨1, 0⟩, ⟨2, 0⟩, ⟨0, 0⟩] : List KmpTableItem)[i].haystack ≤
        ([⟨0, 0⟩, ⟨1, 0⟩, ⟨2, 0⟩, ⟨0, 0⟩] : List KmpTableItem)[i].needle ∧
      ([⟨0, 0⟩, ⟨1, 0⟩, ⟨2, 0⟩, ⟨0, 0⟩] : List KmpTableItem)[i].needle ≤ i :=
  claim_c10_table_shape eqCap eqCap "aaab".toList [⟨0, 0⟩, ⟨1, 0⟩, ⟨2, 0⟩, ⟨0, 0⟩] (by rfl)

/-- C2: for every needle, haystack and capability model, the full pipeline
(table construction via `KmpPattern::new` plus every `next` call of the
search iterator, in either mode) performs no out-of-bounds access and no
arithmetic underflow: the computation never returns the corresponding
error values. -/
theorem claim_c2_no_oob_no_underflow {N H : Type} (P G : N → N → Bool)
    (mh : N → H → Bool) (ov : Bool) (needle : List N) (haystack : List H) :
    kmpSearch P G mh ov needle haystack ≠ Except.error KmpErr.oob ∧
    kmpSearch P G mh ov needle haystack ≠ Except.error KmpErr.underflow ∧
    kmpTable P G needle ≠ Except.error KmpErr.oob ∧
    kmpTable P G needle ≠ Except.error KmpErr.underflow := by
  obtain ⟨l, hl, _, _⟩ := kmpSearch_ok P G mh ov needle haystack
  obtain ⟨lsp, hlsp, _, _, _⟩ := kmpTable_ok P G needle
  refine ⟨?_, ?_, ?_, ?_⟩ <;> intro h
  · rw [h] at hl; cases hl
  · rw [h] at hl; cases hl
  · rw [h] at hlsp; cases hlsp
  · rw [h] at hlsp; cases hlsp

/-- C8: for every finite needle, haystack and capability model, `kmp_table`
and the search loops terminate: with the stated polynomial fuel budgets the
embedded computations never exhaust their fuel (and indeed always return a
result). -/
theorem claim_c8_termination {N H : Type} (P G : N → N → Bool)
    (mh : N → H → Bool) (ov : Bool) (needle : List N) (haystack : List H) :
    (∃ lsp, kmpTable P G needle = Except.ok lsp) ∧
    (∃ l, kmpSearch P G mh ov needle haystack = Except.ok l) ∧
    kmpSearch P G mh ov needle haystack ≠ Except.error KmpErr.fuel := by
  obtain ⟨l, hl, _, _⟩ := kmpSearch_ok P G mh ov needle haystack
  obtain ⟨lsp, hlsp, _, _, _⟩ := kmpTable_ok P G needle
  exact ⟨⟨lsp, hlsp⟩, ⟨l, hl⟩, by intro h; rw [h] at hl; cases hl⟩

/-- C9: in both search modes and for every capability model, the sequence of
positions yielded by successive `next` calls is strictly increasing, and
every yielded position `p` satisfies `p + needle.length ≤ haystack.length`. -/
theorem claim_c9_positions {N H : Type} (P G : N → N → Bool)
    (mh : N → H → Bool) (ov : Bool) (needle : List N) (haystack : List H)
    (l : List Nat) (h : kmpSearch P G mh ov needle haystack = Except.ok l) :
    l.Pairwise (· < ·) ∧ ∀ p ∈ l, p + needle.length ≤ haystack.length := by
  obtain ⟨l', hl', hpair, hbnd⟩ := kmpSearch_ok P G mh ov needle haystack
  rw [h] at hl'
  cases hl'
  exact ⟨hpair, hbnd⟩

/-- Witness for C9 on needle `"aa"`, haystack `"aaaaa"`, overlapping mode. -/
theorem claim_c9_witness :
    ([0, 1, 2, 3] : List Nat).Pairwise (· < ·) ∧
    ∀ p ∈ ([0, 1, 2, 3] : List Nat),
      p + "aa".toList.length ≤ "aaaaa".toList.length :=
  claim_c9_positions eqCap eqCap eqCap true "aa".toList "aaaaa".toList
    [0, 1, 2, 3] (by rfl)

/-- C3: over exact-equality elements (all three capability predicates plain
equality), the overlapping search yields exactly the classical KMP result
set: a position is yielded if and only if the needle occurs in the haystack
at that position. -/
theorem claim_c3_classical_kmp {α : Type} [DecidableEq α]
    (needle haystack : List α) (l : List Nat)
    (h : kmpSearch eqCap eqCap eqCap true needle haystack = Except.ok l) :
    ∀ p, p ∈ l ↔ OccursAt needle haystack p := by
  match hn : needle with
  | [] =>
    rw [kmpSearch, kmpTable] at h
    rw [ok_bind] at h
    rw [kmpRun_nil_eq eqCap true [] haystack (haystack.length + 2) 0 (by omega)
      (by omega)] at h
    cases h
    intro p
    rw [List.mem_range']
    unfold OccursAt
    simp only [List.length_nil, Nat.add_zero, List.take_zero]
    constructor
    · rintro ⟨i, hi, hp⟩
      exact ⟨by omega, trivial⟩
    · rintro ⟨hple, -⟩
      exact ⟨p, by omega, by omega⟩
  | n0 :: rest =>
    have hL : 1 ≤ (n0 :: rest).length := by simp
    rw [kmpSearch, kmpTable_border, ok_bind] at h
    have hchar := kmpRun_char (n0 :: rest) haystack hL (haystack.length + 2) 0 0 l
      (by omega) (SInv_zero (n0 :: rest) haystack hL) h
    intro p
    rw [hchar p]
    exact occEnd_iff_occursAt (n0 :: rest) haystack hL p

/-- Witness for C3 on needle `"ab"`, haystack `"abab"`, at position 2. -/
theorem claim_c3_witness :
    2 ∈ ([0, 2] : List Nat) ↔ OccursAt "ab".toList "abab".toList 2 :=
  claim_c3_classical_kmp "ab".toList "abab".toList [0, 2] (by rfl) 2

end KmpRs
